import Mathlib

/-!
Verification of the CNRomTranslator title-resolution engine.

Shallow embedding of `rom_fuzzy_translate.py` and `seq_utils.py`:
strings are `String` (lists of Unicode `Char`), Python regular-expression
scans are replaced by equivalent recursive scans over `List Char`, Python
dicts are association lists in insertion order, and the external
`rapidfuzz` similarity scorer is an abstract parameter
`score : String → String → Nat` (the code truncates its float scores with
`int`, so a `Nat`-valued scorer is the observable interface).
-/

namespace CNRom

/-- Python's `\s` / `str.strip()` whitespace, restricted to the Unicode
whitespace characters (ASCII whitespace plus the common Unicode space
code points). -/
def pyWs (c : Char) : Bool :=
  c = ' ' || c = '\t' || c = '\n' || c = '\r' || c = Char.ofNat 0x0b ||
  c = Char.ofNat 0x0c || c = Char.ofNat 0x1c || c = Char.ofNat 0x1d ||
  c = Char.ofNat 0x1e || c = Char.ofNat 0x1f || c = Char.ofNat 0x85 ||
  c = Char.ofNat 0xa0 || c = Char.ofNat 0x1680 ||
  (0x2000 ≤ c.toNat && c.toNat ≤ 0x200a) ||
  c = Char.ofNat 0x2028 || c = Char.ofNat 0x2029 || c = Char.ofNat 0x202f ||
  c = Char.ofNat 0x205f || c = Char.ofNat 0x3000

/-- Python's `\w` word character as used by the sources: ASCII
alphanumerics, underscore, and CJK unified ideographs (the scripts this
program's inputs use). -/
def pyIsWord (c : Char) : Bool :=
  c.isAlphanum || c = '_' || (0x4E00 ≤ c.toNat && c.toNat ≤ 0x9FFF)

/-- Python `str.lower()` on the program's data (ASCII letters fold; CJK
characters have no case). -/
def pyLower (s : String) : String := ⟨s.data.map Char.toLower⟩

/-! ### Normalizer (`norm`, rom_fuzzy_translate.py lines 17-29) -/

/-- `FW_MAP` lookup with identity default: `str.translate(PUNCT)` maps
each fullwidth punctuation character to its ASCII equivalent. -/
def fwFold (c : Char) : Char :=
  if c = '，' then ',' else if c = '！' then '!' else if c = '？' then '?'
  else if c = '（' then '(' else if c = '）' then ')' else if c = '：' then ':'
  else if c = '；' then ';' else if c = '【' then '[' else if c = '】' then ']'
  else if c = '、' then ',' else if c = '—' then '-' else if c = '－' then '-'
  else if c = '～' then '~' else if c = '　' then ' ' else c

/-- Second fold pass: `re.sub(r"[！-｠　]", FW_MAP.get(...))`
applied characterwise over the fullwidth block. -/
def fwRangeFold (c : Char) : Char :=
  if (0xFF01 ≤ c.toNat && c.toNat ≤ 0xFF60) || c.toNat = 0x3000 then fwFold c else c

/-- Third pass: `s.replace('　', ' ')`. -/
def ideographicSpaceFold (c : Char) : Char :=
  if c = '　' then ' ' else c

/-- Whitespace collapse `re.sub(r"\s+", " ", s)`: every maximal run of
whitespace becomes a single ASCII space.  The flag records whether the
previous character was whitespace (i.e. we are inside a run). -/
def collapseAux : Bool → List Char → List Char
  | _, [] => []
  | prev, c :: cs =>
    if pyWs c then
      if prev then collapseAux true cs else ' ' :: collapseAux true cs
    else c :: collapseAux false cs

def collapseWs (l : List Char) : List Char := collapseAux false l

/-- Strip characters satisfying `p` from both ends (Python `str.strip`). -/
def stripEnds (p : Char → Bool) (l : List Char) : List Char :=
  ((l.dropWhile p).reverse.dropWhile p).reverse

def stripWs (l : List Char) : List Char := stripEnds pyWs l

/-- The quote-stripping set of `s.strip(' "\'` + backtick + `')`:
space, double quote, single quote, backtick. -/
def quoteSet (c : Char) : Bool :=
  c = ' ' || c = '"' || c = '\'' || c = Char.ofNat 96

def stripQuotes (l : List Char) : List Char := stripEnds quoteSet l

/-- The metadata marker vocabulary of the `meta` regex (alternation of
literal markers; matching is case-insensitive, which only affects the
ASCII markers). -/
def metaLiterals : List (List Char) :=
  ["简体", "繁体", "中文", "汉化", "英化", "破解版", "修正版", "修复", "补丁",
   "整合", "合集", "典藏", "完全版", "年度版", "豪华版", "beta", "demo"].map String.data

/-- Case-insensitive prefix test. -/
def isPrefixCI : List Char → List Char → Bool
  | [], _ => true
  | _ :: _, [] => false
  | p :: ps, c :: cs => (p.toLower = c.toLower) && isPrefixCI ps cs

/-- The `v\d` alternative of the `meta` regex at the head of `l`. -/
def vDigitAt : List Char → Bool
  | c :: d :: _ => c.toLower = 'v' && d.isDigit
  | _ => false

/-- The `ver\.?\d` alternative of the `meta` regex at the head of `l`. -/
def verDigitAt : List Char → Bool
  | c1 :: c2 :: c3 :: c4 :: rest =>
    c1.toLower = 'v' && c2.toLower = 'e' && c3.toLower = 'r' &&
      (c4.isDigit || (c4 = '.' && (match rest with
                                   | c5 :: _ => c5.isDigit
                                   | [] => false)))
  | _ => false

/-- Does some alternative of the `meta` regex match starting at the head
of `l`?  Covers the literal markers plus `v\d` and `ver\.?\d`. -/
def metaAt (l : List Char) : Bool :=
  metaLiterals.any (fun m => isPrefixCI m l) || vDigitAt l || verDigitAt l

/-- Does the `meta` regex match anywhere in `l`? -/
def containsMeta : List Char → Bool
  | [] => false
  | c :: cs => metaAt (c :: cs) || containsMeta cs

/-- Split `l` at the first occurrence of `c`: `some (before, after)` with
`l = before ++ c :: after`, or `none` when `c` does not occur. -/
def breakAtChar (ch : Char) : List Char → Option (List Char × List Char)
  | [] => none
  | x :: xs =>
    if x = ch then some ([], xs)
    else (breakAtChar ch xs).map (fun p => (x :: p.1, p.2))

/-- One span-removal scan `re.sub(rf"{op}(?=[^{cl}]*meta)[^{cl}]*{cl}", "", s)`:
at each opening character `op`, the regex span runs to the first following
closing character `cl`; the lookahead holds exactly when that span's
content contains a metadata marker.  On a match the span is deleted and
scanning resumes after it; otherwise scanning resumes at the next
character.  The scan consumes at least one character per step, so fuel
equal to the list length (supplied by the wrappers below) never runs
out; the zero-fuel case is unreachable. -/
def removeSpanMetaF (op cl : Char) : Nat → List Char → List Char
  | _, [] => []
  | 0, l => l
  | fuel + 1, c :: rest =>
    if c = op then
      match breakAtChar cl rest with
      | none => c :: rest
      | some (content, after) =>
        if containsMeta content then removeSpanMetaF op cl fuel after
        else c :: removeSpanMetaF op cl fuel rest
    else c :: removeSpanMetaF op cl fuel rest

/-- `re.sub(r"\((?=[^)]*meta)[^)]*\)", "", s)`. -/
def removeParenMeta (l : List Char) : List Char := removeSpanMetaF '(' ')' l.length l

/-- `re.sub(r"\[(?=[^\]]*meta)[^\]]*\]", "", s)`. -/
def removeBracketMeta (l : List Char) : List Char := removeSpanMetaF '[' ']' l.length l

/-- `norm` (rom_fuzzy_translate.py lines 17-29) on character lists:
fullwidth folding, whitespace collapse, metadata-span stripping,
quote stripping, final whitespace collapse. -/
def normL (l : List Char) : List Char :=
  let s1 := l.map fwFold
  let s2 := s1.map fwRangeFold
  let s3 := s2.map ideographicSpaceFold
  let s4 := collapseWs (stripWs s3)
  let s5 := removeBracketMeta (removeParenMeta s4)
  let s6 := stripQuotes s5
  stripWs (collapseWs s6)

def norm (s : String) : String := ⟨normL s.data⟩

/-! ### SequenceTokenizer (`seq_utils.py`) -/

/-- `_CN_NUM_MAP` membership. -/
def isCNKey (c : Char) : Bool :=
  c = '零' || c = '一' || c = '二' || c = '两' || c = '三' || c = '四' ||
  c = '五' || c = '六' || c = '七' || c = '八' || c = '九' || c = '十'

/-- `_CN_NUM_MAP` value for a single character (callers use
`.get(key, 0)` semantics via `cnLookupStr`). -/
def cnVal (c : Char) : Nat :=
  if c = '零' then 0 else if c = '一' then 1 else if c = '二' then 2
  else if c = '两' then 2 else if c = '三' then 3 else if c = '四' then 4
  else if c = '五' then 5 else if c = '六' then 6 else if c = '七' then 7
  else if c = '八' then 8 else if c = '九' then 9 else if c = '十' then 10
  else 0

/-- `_CN_NUM_MAP.get(tok, 0)` where `tok` is a string: the dict is keyed
by single-character strings, so longer strings default to 0. -/
def cnLookupStr (l : List Char) : Nat :=
  match l with
  | [c] => if isCNKey c then cnVal c else 0
  | _ => 0

/-- Decimal value of a digit string (`int(m)` for matched digit runs). -/
def digitsVal (l : List Char) : Nat :=
  l.foldl (fun acc c => acc * 10 + (c.toNat - '0'.toNat)) 0

/-- `chinese_numeral_to_int` (seq_utils.py lines 15-37). -/
def chinese_numeral_to_int (t0 : List Char) : Option Nat :=
  let t := stripWs t0
  if t = [] then none
  else if t.all Char.isDigit then some (digitsVal t)
  else if t = ['十'] then some 10
  else if '十' ∈ t then
    let parts := t.splitOn '十'
    let left := parts.headD []
    let right := if parts.length > 1 then parts.getD 1 [] else []
    some ((if left = [] then 10 else cnLookupStr left * 10) +
          (if right ≠ [] then cnLookupStr right else 0))
  else
    match t with
    | [c] => if isCNKey c then some (cnVal c) else none
    | _ => none

/-- `re.findall(r"\d{1,2}", s)`: non-overlapping greedy runs of one or
two ASCII digits, scanning left to right. -/
def digitRuns : List Char → List (List Char)
  | [] => []
  | [c] => if c.isDigit then [[c]] else []
  | c :: d :: rest =>
    if c.isDigit then
      if d.isDigit then [c, d] :: digitRuns rest
      else [c] :: digitRuns (d :: rest)
    else digitRuns (d :: rest)

/-- `re.findall(r"[一二两三四五六七八九十]{1,3}", s)`: non-overlapping
greedy runs of one to three CJK numeral characters. -/
def cjkRuns : List Char → List (List Char)
  | [] => []
  | [c] => if isCNKey c && c ≠ '零' then [[c]] else []
  | [c, d] =>
    if isCNKey c && c ≠ '零' then
      if isCNKey d && d ≠ '零' then [[c, d]] else [[c]]
    else if isCNKey d && d ≠ '零' then [[d]] else []
  | c :: d :: e :: rest =>
    if isCNKey c && c ≠ '零' then
      if isCNKey d && d ≠ '零' then
        if isCNKey e && e ≠ '零' then [c, d, e] :: cjkRuns rest
        else [c, d] :: cjkRuns (e :: rest)
      else [c] :: cjkRuns (d :: e :: rest)
    else cjkRuns (d :: e :: rest)

/-- The alternatives of `r"\b(?:I|II|III|IV|V|VI|VII|VIII|IX|X)\b"` in
pattern order, with their `_ROMAN_MAP` values. -/
def romanAlts : List (List Char × Nat) :=
  [(['I'], 1), (['I', 'I'], 2), (['I', 'I', 'I'], 3), (['I', 'V'], 4),
   (['V'], 5), (['V', 'I'], 6), (['V', 'I', 'I'], 7), (['V', 'I', 'I', 'I'], 8),
   (['I', 'X'], 9), (['X'], 10)]

/-- Case-insensitive uppercase fold for the Roman-numeral match. -/
def upperL (l : List Char) : List Char := l.map Char.toUpper

/-- Try the Roman-numeral alternation at the head of `l` (a word
boundary is known to precede): first pattern-order alternative that is a
case-insensitive prefix and is followed by a word boundary wins.
Returns the matched length and `_ROMAN_MAP` value. -/
def matchRomanAt (l : List Char) : Option (Nat × Nat) :=
  (romanAlts.find? fun alt =>
      alt.1.isPrefixOf (upperL (l.take alt.1.length)) &&
      alt.1.length ≤ l.length &&
      (match (l.drop alt.1.length).head? with
       | some c => ¬pyIsWord c
       | none => true)).map fun alt => (alt.1.length, alt.2)

/-- `re.findall(r"\b(?:I|II|III|IV|V|VI|VII|VIII|IX|X)\b", s, re.I)`:
scan with a word-boundary flag (was the previous character a word
character?), collecting the numeral values of non-overlapping matches.
Fuel equals the remaining length (each step consumes at least one
character); the zero-fuel case is unreachable. -/
def romanScanF : Nat → Bool → List Char → List Nat
  | _, _, [] => []
  | 0, _, _ => []
  | fuel + 1, prevWord, c :: cs =>
    if !prevWord then
      match matchRomanAt (c :: cs) with
      | some (len, v) => v :: romanScanF fuel true ((c :: cs).drop len)
      | none => romanScanF fuel (pyIsWord c) cs
    else romanScanF fuel (pyIsWord c) cs

def romanScan (l : List Char) : List Nat := romanScanF l.length false l

/-- `extract_seq_tokens` (seq_utils.py lines 48-62): union of the three
numeral scans, each value kept as its canonical decimal string when it
lies in 1..99 (the `if v and 1 <= v <= 99` guards). -/
def extract_seq_tokens (s : String) : Finset String :=
  let l := s.data
  let d1 := (digitRuns l).foldl
    (fun out m => let v := digitsVal m
                  if 1 ≤ v ∧ v ≤ 99 then insert (toString v) out else out) ∅
  let d2 := (cjkRuns l).foldl
    (fun out m =>
      match chinese_numeral_to_int m with
      | some v => if 1 ≤ v ∧ v ≤ 99 then insert (toString v) out else out
      | none => out) ∅
  let d3 := (romanScan l).foldl
    (fun out v => if 1 ≤ v ∧ v ≤ 99 then insert (toString v) out else out) ∅
  d1 ∪ d2 ∪ d3

/-- CJK-numeral substitution pass of `seq_normalize`:
`re.sub(r"[一二两三四五六七八九十]{1,3}", _rep_cn, s)` — each greedy run
is replaced by `str(v)` when `chinese_numeral_to_int` succeeds, else kept. -/
def cjkSubst (run : List Char) : List Char :=
  match chinese_numeral_to_int run with
  | some v => (toString v).data
  | none => run

def cjkNorm : List Char → List Char
  | [] => []
  | [c] => if isCNKey c && c ≠ '零' then cjkSubst [c] else [c]
  | [c, d] =>
    if isCNKey c && c ≠ '零' then
      if isCNKey d && d ≠ '零' then cjkSubst [c, d] else cjkSubst [c] ++ [d]
    else if isCNKey d && d ≠ '零' then c :: cjkSubst [d] else [c, d]
  | c :: d :: e :: rest =>
    if isCNKey c && c ≠ '零' then
      if isCNKey d && d ≠ '零' then
        if isCNKey e && e ≠ '零' then cjkSubst [c, d, e] ++ cjkNorm rest
        else cjkSubst [c, d] ++ cjkNorm (e :: rest)
      else cjkSubst [c] ++ cjkNorm (d :: e :: rest)
    else c :: cjkNorm (d :: e :: rest)

/-- Roman-numeral substitution pass of `seq_normalize`:
`re.sub(r"\b(?:I|II|III|IV|V|VI|VII|VIII|IX|X)\b", _rep_rom, s, re.I)` —
matched numerals are replaced by `str(v)`; fuel as in `romanScanF`. -/
def romanNormF : Nat → Bool → List Char → List Char
  | _, _, [] => []
  | 0, _, l => l
  | fuel + 1, prevWord, c :: cs =>
    if !prevWord then
      match matchRomanAt (c :: cs) with
      | some (len, v) => (toString v).data ++ romanNormF fuel true ((c :: cs).drop len)
      | none => c :: romanNormF fuel (pyIsWord c) cs
    else c :: romanNormF fuel (pyIsWord c) cs

/-- `seq_normalize` (seq_utils.py lines 65-78). -/
def seq_normalize (s : String) : String :=
  let l2 := cjkNorm s.data
  ⟨romanNormF l2.length false l2⟩

/-! ### CandidateRanker (`process.extract` model and `best_match`) -/

/-- A scored candidate as returned by `rapidfuzz.process.extract`:
`(cand_norm, score, index)`. -/
abbrev Cand := String × Nat × Nat

/-- Stable descending insertion: an element is placed after all
already-sorted elements with a greater-or-equal score, so equal scores
keep corpus order. -/
def insertByScore (x : Cand) : List Cand → List Cand
  | [] => [x]
  | y :: ys => if y.2.1 ≤ x.2.1 then x :: y :: ys else y :: insertByScore x ys

def sortByScoreDesc (l : List Cand) : List Cand := l.foldr insertByScore []

/-- Model of `process.extract(query, corpus, scorer, limit)`: score every
corpus entry, sort by score descending (stable: ties keep corpus order)
and keep the first `limit`.  The external `rapidfuzz` scorer is the
abstract parameter `score`. -/
def extractTop (score : String → String → Nat) (q : String)
    (corpus : List String) (limit : Nat) : List Cand :=
  (sortByScoreDesc (corpus.enum.map fun p => (p.2, score q p.2, p.1))).take limit

/-- The tie-break key of `best_match` (rom_fuzzy_translate.py lines
193-200): `(exact, digit_ok, digit_intersect, len(cand_norm))` with
Python truthiness — `digit_ok` is `True` when the query token set is
empty, `digit_intersect` is `1` only when both sets are nonempty and
intersect. -/
def candKey (dseq : String → Finset String) (query_raw query_norm : String)
    (t : Cand) : Bool × Bool × Nat × Nat :=
  let qd := dseq query_raw
  let cd := dseq t.1
  (t.1 = query_norm,
   if qd = ∅ then true else qd = cd,
   if qd ≠ ∅ ∧ cd ≠ ∅ ∧ qd ∩ cd ≠ ∅ then 1 else 0,
   t.1.length)

/-- Python `<` on `(bool, bool, int, int)` tuples: lexicographic with
`False < True`. -/
def bLt (a b : Bool) : Bool := !a && b

def keyLt (x y : Bool × Bool × Nat × Nat) : Bool :=
  bLt x.1 y.1 ||
  (x.1 = y.1 && (bLt x.2.1 y.2.1 ||
    (x.2.1 = y.2.1 && (x.2.2.1 < y.2.2.1 ||
      (x.2.2.1 = y.2.2.1 && x.2.2.2 < y.2.2.2)))))

/-- Python `max(xs, key=f)`: scan keeping the current maximum, replacing
it only on strictly greater key — the first maximal element wins. -/
def pyMaxBy {κ : Type} (lt : κ → κ → Bool) (f : Cand → κ) : Cand → List Cand → Cand
  | cur, [] => cur
  | cur, t :: ts => pyMaxBy lt f (if lt (f cur) (f t) then t else cur) ts

/-- `top = process.extract(query_norm, cn_norm, scorer=fuzz.WRatio, limit=8)`. -/
def bmTop (score : String → String → Nat) (query_norm : String)
    (cn_norm : List String) : List Cand :=
  extractTop score query_norm cn_norm 8

/-- `tied = [t for t in top if int(t[1]) == best_score]`. -/
def bmTied (score : String → String → Nat) (query_norm : String)
    (cn_norm : List String) : List Cand :=
  match bmTop score query_norm cn_norm with
  | [] => []
  | t0 :: rest => (t0 :: rest).filter fun t => t.2.1 = t0.2.1

/-- `best = max(tied, key=key)`; `none` exactly when the corpus is empty. -/
def bmBest (dseq : String → Finset String) (score : String → String → Nat)
    (query_raw query_norm : String) (cn_norm : List String) : Option Cand :=
  match bmTied score query_norm cn_norm with
  | [] => none
  | h :: hs => some (pyMaxBy keyLt (candKey dseq query_raw query_norm) h hs)

/-- `best_match` (rom_fuzzy_translate.py lines 177-203): returns
`(idx, score)`, or `(-1, 0)` when extraction is empty. -/
def best_match (dseq : String → Finset String) (score : String → String → Nat)
    (query_raw query_norm : String) (cn_norm : List String) : Int × Nat :=
  match bmBest dseq score query_raw query_norm cn_norm with
  | none => (-1, 0)
  | some b => ((b.2.2 : Int), b.2.1)

/-- The `digits_set` global set up by `main` (lines 224-232): the real
token extractor under `--seq`, the constant empty set otherwise. -/
def digitsSetFor (seqOn : Bool) : String → Finset String :=
  if seqOn then extract_seq_tokens else fun _ => (∅ : Finset String)

/-- The candidate selected by `best_match`, as a corpus string. -/
def selectedCand (dseq : String → Finset String) (score : String → String → Nat)
    (query_raw query_norm : String) (cn_norm : List String) : String :=
  cn_norm.getD (best_match dseq score query_raw query_norm cn_norm).1.toNat ""

def constScorer : String → String → Nat := fun _ _ => 100

/-- The tie-break key as it behaves without `--seq` (tie-break reduced to
exact normalized equality and candidate length) — a refinement reference
definition, to be compared with `candKey` under `digitsSetFor false`. -/
def candKeyEL (query_norm : String) (t : Cand) : Bool × Nat :=
  (t.1 = query_norm, t.1.length)

def keyLtEL (x y : Bool × Nat) : Bool :=
  bLt x.1 y.1 || (x.1 = y.1 && x.2 < y.2)

/-- `best_match` with the reduced two-component tie-break key — a
refinement reference definition for claim C10. -/
def best_matchEL (score : String → String → Nat) (query_norm : String)
    (cn_norm : List String) : Int × Nat :=
  match bmTied score query_norm cn_norm with
  | [] => (-1, 0)
  | h :: hs =>
    let b := pyMaxBy keyLtEL (candKeyEL query_norm) h hs
    ((b.2.2 : Int), b.2.1)

/-! ### AliasResolver (`load_aliases` / `apply_alias`) -/

/-- One subject record of `name_alias(Chinese).json`: a default name and
the `alias`, `others` and `alias-en` spelling lists. -/
structure AliasRec where
  dflt : Option String := none
  aliasL : List String := []
  others : List String := []
  aliasEn : List String := []

/-- Python dict assignment `m[k] = v`: replace the value in place when
the key exists (keeping its position), else append. -/
def dinsert (m : List (String × String)) (k v : String) : List (String × String) :=
  if m.any (fun p => p.1 = k) then m.map (fun p => if p.1 = k then (k, v) else p)
  else m ++ [(k, v)]

/-- Python dict lookup `m[k]` / `k in m`. -/
def dictLookup (m : List (String × String)) (k : String) : Option String :=
  (m.find? fun p => p.1 = k).map (fun p => p.2)

/-- The normalized key under which an alias string is stored:
`norm(a).lower()`. -/
def aliasKey (a : String) : String := pyLower (norm a)

/-- The `for en, v in data.items()` loop body of `load_aliases`
(rom_fuzzy_translate.py lines 43-54): write the default name's key, then
every nonempty `alias`/`others` spelling, then every nonempty `alias-en`
spelling, all mapping to the default; subjects with a missing or empty
default are skipped. -/
def aliasEntryStep (amap : List (String × String)) (ev : String × AliasRec) :
    List (String × String) :=
  match ev.2.dflt with
  | none => amap
  | some d =>
    if d = "" then amap
    else
      let amap1 := dinsert amap (aliasKey d) d
      let amap2 := (ev.2.aliasL ++ ev.2.others).foldl
        (fun m a => if a = "" then m else dinsert m (aliasKey a) d) amap1
      ev.2.aliasEn.foldl
        (fun m a => if a = "" then m else dinsert m (aliasKey a) d) amap2

/-- `load_aliases` (rom_fuzzy_translate.py lines 42-55): fold the
per-subject loop body over the alias file's entries, starting from the
empty dict. -/
def load_aliases (data : List (String × AliasRec)) : List (String × String) :=
  data.foldl aliasEntryStep []

/-- The sequence of `amap[key] = default` assignments one subject record
performs, in program order. -/
def entryWrites (ev : String × AliasRec) : List (String × String) :=
  match ev.2.dflt with
  | none => []
  | some d =>
    if d = "" then []
    else
      (aliasKey d, d) ::
      ((ev.2.aliasL ++ ev.2.others).filterMap
        (fun a => if a = "" then none else some (aliasKey a, d)) ++
       ev.2.aliasEn.filterMap
        (fun a => if a = "" then none else some (aliasKey a, d)))

/-- All assignments `load_aliases` performs, in program order. -/
def aliasWrites (data : List (String × AliasRec)) : List (String × String) :=
  (data.map entryWrites).flatten

/-- Python substring test `p in l`. -/
def isSubstr (p : List Char) : List Char → Bool
  | [] => p.isEmpty
  | c :: rest => p.isPrefixOf (c :: rest) || isSubstr p rest

/-- `re.sub(re.escape(pat), can, s, flags=re.I)`: replace every
non-overlapping, leftmost-first, case-insensitive occurrence of the
literal `pat`.  An empty pattern matches at every position (Python
semantics).  Fuel equals the list length; each step consumes at least
one character, so the zero-fuel case is unreachable. -/
def replaceAllCIF (pat can : List Char) : Nat → List Char → List Char
  | _, [] => if pat.isEmpty then can else []
  | 0, l => l
  | fuel + 1, c :: cs =>
    if pat.isEmpty then can ++ c :: replaceAllCIF pat can fuel cs
    else if isPrefixCI pat (c :: cs) then
      can ++ replaceAllCIF pat can fuel ((c :: cs).drop pat.length)
    else c :: replaceAllCIF pat can fuel cs

/-- `apply_alias` (rom_fuzzy_translate.py lines 58-68): exact lowercased
key lookup first; otherwise the first table entry (insertion order)
whose key is a substring of the lowercased input rewrites that key
case-insensitively inside the original string; otherwise unchanged. -/
def apply_alias (s : String) (amap : List (String × String)) : String :=
  if amap.isEmpty then s
  else
    let ln := pyLower s
    match dictLookup amap ln with
    | some v => v
    | none =>
      match amap.find? (fun p => isSubstr p.1.data ln.data) with
      | some p => ⟨replaceAllCIF p.1.data p.2.data s.data.length s.data⟩
      | none => s

/-! ### Main loop model (`main`, rom_fuzzy_translate.py lines 206-331) -/

/-- Index of the last occurrence of `c` (Python `str.rfind`),
`none` when absent. -/
def lastIdxOf (c : Char) (l : List Char) : Option Nat :=
  l.enum.foldl (fun acc p => if p.2 = c then some p.1 else acc) none

/-- `os.path.splitext`: split off the last dot-suffix of the basename
unless the basename consists only of leading dots up to that suffix. -/
def pySplitext (s : String) : String × String :=
  let p := s.data
  let sepIdx : Int := match lastIdxOf '/' p with | some i => (i : Int) | none => -1
  match lastIdxOf '.' p with
  | none => (s, "")
  | some dot =>
    if sepIdx < (dot : Int) then
      let start := (sepIdx + 1).toNat
      if ((p.drop start).take (dot - start)).any (fun c => c ≠ '.') then
        (⟨p.take dot⟩, ⟨p.drop dot⟩)
      else (s, "")
    else (s, "")

/-- `stem = os.path.splitext(rf)[0] or rf`. -/
def stemOf (rf : String) : String :=
  let s := (pySplitext rf).1
  if s = "" then rf else s

/-- The match query: `seq_normalize(apply_alias(norm(stem), alias_map)).lower()`. -/
def queryOf (amap : List (String × String)) (rf : String) : String :=
  pyLower (seq_normalize (apply_alias (norm (stemOf rf)) amap))

/-- The `best_match` call of the per-record loop (line 249). -/
def bmOf (dseq : String → Finset String) (scorer : String → String → Nat)
    (amap : List (String × String)) (cn_norm_seq : List String) (rf : String) : Int × Nat :=
  best_match dseq scorer (stemOf rf) (queryOf amap rf) cn_norm_seq

/-- `csv_cn = cn_list[idx] if idx >= 0 else ""` (lines 250-254). -/
def matchedCn (cn_list : List String) (bm : Int × Nat) : String :=
  if 0 ≤ bm.1 then cn_list.getD bm.1.toNat "" else ""

/-- `csv_en = cn2en.get(csv_cn, "") if idx >= 0 else ""` (lines 250-254);
`cn2en` is modeled as a total map with default `""`. -/
def matchedEn (cn2en : String → String) (cn_list : List String) (bm : Int × Nat) : String :=
  if 0 ≤ bm.1 then cn2en (cn_list.getD bm.1.toNat "") else ""

/-- `top_candidates` (lines 136-141) with `limit=6`:
`(csv_cn, csv_en, score, cand_norm)` tuples. -/
def top_candidates (scorer : String → String → Nat) (query_norm : String)
    (cn_norm : List String) (cn_list : List String) (cn2en : String → String) :
    List (String × String × Nat × String) :=
  (extractTop scorer query_norm cn_norm 6).map fun t =>
    (cn_list.getD t.2.2 "", cn2en (cn_list.getD t.2.2 ""), t.2.1, t.1)

/-- The three decision states of the per-record policy. -/
inductive RState where
  | noMatch
  | autoAccepted
  | pendingReview
deriving DecidableEq, Repr

/-- One per-title resolution record (the dicts appended to `results`),
tagged with its decision state. -/
structure RRec where
  rf : String
  stem : String
  csv_cn : String
  csv_en : String
  score : Nat
  candidates : List (String × String × Nat × String)
  chosen : Option String
  state : RState
deriving DecidableEq, Repr

/-- The first-pass body of the `for rf in roms` loop (lines 243-270):
no nonempty mapped primary name → `NO_MATCH` fallback to the stem with
recorded score 0; score at or above threshold → auto-accept the mapped
primary name; otherwise a pending record retaining the top-6 candidates. -/
def processOne (dseq : String → Finset String) (scorer : String → String → Nat)
    (th : Nat) (amap : List (String × String)) (cn_list : List String)
    (cn_norm_seq : List String) (cn2en : String → String) (rf : String) : RRec :=
  let stem := stemOf rf
  let bm := bmOf dseq scorer amap cn_norm_seq rf
  let csv_cn := matchedCn cn_list bm
  let csv_en := matchedEn cn2en cn_list bm
  let score := if 0 ≤ bm.1 then bm.2 else 0
  if csv_en = "" then
    ⟨rf, stem, "", "", 0, [], some stem, .noMatch⟩
  else if th ≤ score then
    ⟨rf, stem, csv_cn, csv_en, score, [], some csv_en, .autoAccepted⟩
  else
    let cands := top_candidates scorer (queryOf amap rf) cn_norm_seq cn_list cn2en
    ⟨rf, stem,
     (match cands with | [] => "" | c :: _ => c.1),
     (match cands with | [] => "" | c :: _ => c.2.1),
     score, cands, none, .pendingReview⟩

/-- The review resolution of one pending record (lines 278-295): a falsy
answer keeps the stem; an answer matching a retained candidate's primary
name adopts that candidate; any other answer is a manual override. -/
def resolveOne (disp : Option String) (r : RRec) : RRec :=
  match disp with
  | none => { r with chosen := some r.stem }
  | some d =>
    if d = "" then { r with chosen := some r.stem }
    else
      match r.candidates.find? (fun c => c.2.1 = d) with
      | some c => { r with csv_cn := c.1, csv_en := c.2.1, chosen := some c.2.1 }
      | none => { r with chosen := some d }

/-- The second interactive pass (lines 272-295): pending records are
resolved in order, consuming the operator's answers (modeled as a
function from the pending record's queue position). -/
def applyReview (ans : Nat → Option String) : Nat → List RRec → List RRec
  | _, [] => []
  | k, r :: rs =>
    match r.state with
    | .pendingReview => resolveOne (ans k) r :: applyReview ans (k + 1) rs
    | _ => r :: applyReview ans k rs

/-- `xml.sax.saxutils.escape`: escape `&`, `<`, `>`. -/
def xesc (s : String) : String :=
  ⟨(s.data.map fun c =>
      if c = '&' then "&amp;".data
      else if c = '<' then "&lt;".data
      else if c = '>' then "&gt;".data
      else [c]).flatten⟩

/-- One `<game>` element of the output catalog (lines 311-319): the
escaped path, and the escaped chosen name unless the record fell back to
its raw stem. -/
def gameEntry (r : RRec) : String × Option String :=
  let name := match r.chosen with
              | some c => if c = "" then r.stem else c
              | none => r.stem
  (xesc ("./" ++ r.rf),
   if name ≠ "" ∧ name ≠ r.stem then some (xesc name) else none)

/-- The output catalog produced from a title list (first pass, review
pass, serialization loop). -/
def runCatalog (dseq : String → Finset String) (scorer : String → String → Nat)
    (th : Nat) (amap : List (String × String)) (cn_list : List String)
    (cn_norm_seq : List String) (cn2en : String → String)
    (ans : Nat → Option String) (roms : List String) : List (String × Option String) :=
  (applyReview ans 0 (roms.map (processOne dseq scorer th amap cn_list cn_norm_seq cn2en))).map gameEntry

/-- `re.split(r"\s{2,}", l)`: split at maximal whitespace runs of length
at least two; single whitespace characters stay inside the pieces.  Fuel
equals the list length; a separator consumes at least two characters. -/
def split2wsF : Nat → List Char → List (List Char)
  | _, [] => [[]]
  | 0, l => [l]
  | fuel + 1, c :: cs =>
    let sep := pyWs c && (match cs with | c2 :: _ => pyWs c2 | [] => false)
    if sep then [] :: split2wsF fuel (cs.dropWhile pyWs)
    else
      match split2wsF fuel cs with
      | [] => [[c]]
      | p :: ps => (c :: p) :: ps

def split2ws (l : List Char) : List (List Char) := split2wsF l.length l

/-- `parse_ls` (lines 80-86): strip each line, skip empty lines, split
the rest on two-or-more whitespace and keep the nonempty columns. -/
def parse_ls (lines : List String) : List String :=
  (lines.map fun ln =>
    let t : String := ⟨stripWs ln.data⟩
    if t = "" then []
    else (split2ws t.data).filterMap fun p =>
      if p.isEmpty then none else some (⟨p⟩ : String)).flatten

/-- `main` (lines 206-331) as a function from its inputs to either a
fatal exit code or the produced output catalog: a missing reference CSV
exits with code 2 before reading anything else; an empty parsed title
list exits with code 2; otherwise the catalog is produced.  The
`Except` result carries no catalog in the error cases — a fatal error
terminates before any output exists. -/
def mainRun (csvExists : Bool) (cn_list : List String) (cn2en : String → String)
    (aliasData : List (String × AliasRec)) (seqOn : Bool)
    (scorer : String → String → Nat) (lines : List String) (th : Nat)
    (ans : Nat → Option String) : Except Nat (List (String × Option String)) :=
  if csvExists = false then .error 2
  else
    let amap := load_aliases aliasData
    let cn_norm_seq :=
      if seqOn then cn_list.map (fun c => pyLower (seq_normalize (apply_alias (norm c) amap)))
      else cn_list.map (fun c => pyLower (apply_alias (norm c) amap))
    let dseq := digitsSetFor seqOn
    let roms := parse_ls lines
    if roms = [] then .error 2
    else .ok (runCatalog dseq scorer th amap cn_list cn_norm_seq cn2en ans roms)

/-- Two alias subjects whose defaults normalize to the same key
`"foo"`. -/
def demoAliasData : List (String × AliasRec) :=
  [("Alpha", { dflt := some "Foo" }), ("Beta", { dflt := some "foo" })]

/-- The composite character fold of `normL`'s first three passes. -/
def tFold (c : Char) : Char := ideographicSpaceFold (fwRangeFold (fwFold c))

/-- A character untouched by each of the three fold passes. -/
def tFixed (c : Char) : Prop :=
  fwFold c = c ∧ fwRangeFold c = c ∧ ideographicSpaceFold c = c

/-- A collapsed string: every whitespace character is an ASCII space and
no two spaces are adjacent. -/
def okWs (l : List Char) : Prop :=
  (∀ c ∈ l, pyWs c = true → c = ' ') ∧
  l.Chain' (fun a b => ¬(a = ' ' ∧ b = ' '))

/-! ### General lemmas -/

theorem breakAtChar_eq (ch : Char) :
    ∀ (l a b : List Char), breakAtChar ch l = some (a, b) → l = a ++ ch :: b := by
  intro l
  induction l with
  | nil => intro a b h; simp [breakAtChar] at h
  | cons x xs ih =>
    intro a b h
    by_cases hx : x = ch
    · simp [breakAtChar, hx] at h
      simp [hx, ← h.1, ← h.2]
    · simp [breakAtChar, hx] at h
      obtain ⟨p, hpq, ha⟩ := h
      subst ha
      simp [ih p b hpq]

theorem breakAtChar_len (ch : Char) :
    ∀ (l a b : List Char), breakAtChar ch l = some (a, b) → b.length < l.length := by
  intro l a b h
  have := breakAtChar_eq ch l a b h
  subst this
  simp
  omega

/-! ### Claim C2 — sequence-token extraction examples -/

/-- Claim C2: `extract_tokens` is claimed to return only canonical
decimal values in 1..99 and to exclude four-digit years, with
`extract_tokens("Game 1999") = {}`.  Evaluating the code: the three
other examples hold, but `re.findall(r"\d{1,2}", "1999")` chops the
year into the two-digit runs `19` and `99`, both of which pass the 1..99
filter, so `extract_seq_tokens "Game 1999" = {"19", "99"}`, not the
empty set — the year-exclusion rationale is defeated by the unanchored
digit scan. -/
theorem extract_seq_tokens_examples :
    extract_seq_tokens "Game 2" = {"2"} ∧
    extract_seq_tokens "游戏二" = {"2"} ∧
    extract_seq_tokens "Game II" = {"2"} ∧
    extract_seq_tokens "Game 1999" = {"19", "99"} :=
  ⟨by decide, by decide, by decide, by decide⟩

/-! ### Claim C3 — alias table duplicate keys -/

/-- Claim C3 counterexample: the write sequence for `demoAliasData`
writes key `"foo"` first with canonical value `"Foo"` and then with
`"foo"`, and the finished table maps `"foo"` to the LAST value written
— dict assignment overwrites, so the first writer does not win. -/
theorem load_aliases_first_writer_false :
    aliasWrites demoAliasData = [("foo", "Foo"), ("foo", "foo")] ∧
    dictLookup (load_aliases demoAliasData) "foo" = some "foo" ∧
    ("foo" : String) ≠ "Foo" :=
  ⟨by decide, by decide, by decide⟩

theorem dictLookup_cons_pos (p : String × String) (m : List (String × String))
    (k' : String) (h : p.1 = k') : dictLookup (p :: m) k' = some p.2 := by
  simp [dictLookup, List.find?_cons_of_pos, h]

theorem dictLookup_cons_neg (p : String × String) (m : List (String × String))
    (k' : String) (h : ¬p.1 = k') : dictLookup (p :: m) k' = dictLookup m k' := by
  simp only [dictLookup]
  rw [List.find?_cons_of_neg]
  simp [h]

theorem dictLookup_map_overwrite (k v k' : String) (m : List (String × String)) :
    dictLookup (m.map (fun p => if p.1 = k then (k, v) else p)) k' =
      if k' = k then (if m.any (fun p => p.1 = k) then some v else none)
      else dictLookup m k' := by
  induction m with
  | nil => simp [dictLookup]
  | cons p m ih =>
    simp only [List.map_cons, List.any_cons]
    by_cases hp : p.1 = k
    · rw [if_pos hp]
      by_cases hk : k' = k
      · rw [dictLookup_cons_pos _ _ _ (by simp [hk])]
        simp [hk, hp]
      · rw [dictLookup_cons_neg _ _ _ (by simpa using fun h => hk h.symm), ih,
          dictLookup_cons_neg _ _ _ (by rw [hp]; exact fun h => hk h.symm)]
        simp [hk]
    · by_cases hpk : p.1 = k'
      · have hk : ¬k' = k := fun h => hp (h ▸ hpk)
        rw [if_neg hp, dictLookup_cons_pos _ _ _ hpk, dictLookup_cons_pos _ _ _ hpk]
        simp [hk]
      · rw [if_neg hp, dictLookup_cons_neg _ _ _ hpk, ih,
          dictLookup_cons_neg _ _ _ hpk]
        have hdp : (decide (p.1 = k)) = false := by simp [hp]
        by_cases hk : k' = k
        · rw [if_pos hk, if_pos hk]
          simp only [hdp, Bool.false_or]
        · simp [hk]

/-- Dict assignment: looking up `k'` after `m[k] = v` yields `v` when
`k' = k` and is otherwise unchanged. -/
theorem dictLookup_dinsert (m : List (String × String)) (k v k' : String) :
    dictLookup (dinsert m k v) k' = if k' = k then some v else dictLookup m k' := by
  unfold dinsert
  by_cases hany : m.any (fun p => p.1 = k)
  · rw [if_pos hany, dictLookup_map_overwrite]
    simp [hany]
  · rw [if_neg hany]
    unfold dictLookup
    rw [List.find?_append]
    by_cases hk : k' = k
    · subst hk
      have hnone : m.find? (fun p => decide (p.1 = k')) = none := by
        rw [List.find?_eq_none]
        intro p hp
        simp only [List.any_eq_true, not_exists] at hany
        have := hany p
        simp_all
      simp [hnone, List.find?]
    · have : (decide ((k, v).1 = k')) = false := by
        simp
        exact fun h => hk h.symm
      cases hg : m.find? (fun p => decide (p.1 = k')) <;>
        simp [hg, List.find?, this, hk, Option.or]

theorem dictLookup_foldl_dinsert (ws : List (String × String)) :
    ∀ (m : List (String × String)) (k : String),
      dictLookup (ws.foldl (fun m p => dinsert m p.1 p.2) m) k =
        ((ws.reverse.find? (fun p => p.1 = k)).map (fun p => p.2)).or (dictLookup m k) := by
  induction ws with
  | nil => simp
  | cons w ws ih =>
    intro m k
    simp only [List.foldl_cons, List.reverse_cons]
    rw [ih, List.find?_append]
    cases hf : ws.reverse.find? (fun p => decide (p.1 = k)) with
    | some p => simp [Option.or]
    | none =>
      rw [dictLookup_dinsert]
      by_cases hk : k = w.1
      · simp [List.find?, hk, Option.or]
      · have : (decide (w.1 = k)) = false := by simp; exact fun h => hk h.symm
        simp [List.find?, this, hk, Option.or]

theorem foldl_if_dinsert (d : String) (l : List String) :
    ∀ m, l.foldl (fun m a => if a = "" then m else dinsert m (aliasKey a) d) m =
      (l.filterMap fun a => if a = "" then none else some (aliasKey a, d)).foldl
        (fun m p => dinsert m p.1 p.2) m := by
  induction l with
  | nil => simp
  | cons a l ih =>
    intro m
    by_cases ha : a = "" <;> simp [ha, ih]

theorem load_aliases_eq_foldl (data : List (String × AliasRec)) :
    load_aliases data = (aliasWrites data).foldl (fun m p => dinsert m p.1 p.2) [] := by
  suffices h : ∀ m, data.foldl aliasEntryStep m =
      (aliasWrites data).foldl (fun m p => dinsert m p.1 p.2) m from h []
  induction data with
  | nil => intro m; simp [aliasWrites]
  | cons ev data ih =>
    intro m
    have hsplit : aliasWrites (ev :: data) = entryWrites ev ++ aliasWrites data := by
      simp [aliasWrites]
    rw [List.foldl_cons, ih, hsplit, List.foldl_append]
    congr 1
    unfold aliasEntryStep entryWrites
    cases hd : ev.2.dflt with
    | none => simp
    | some d =>
      by_cases hde : d = ""
      · simp [hde]
      · simp only [hde, if_false]
        rw [foldl_if_dinsert d (ev.2.aliasL ++ ev.2.others),
          foldl_if_dinsert d ev.2.aliasEn]
        simp [List.filterMap_append, List.foldl_append]

/-- Claim C3 amended: duplicate normalized keys resolve by LAST writer
wins — the finished table maps each normalized key to the canonical
value of the last assignment performed for that key, and earlier
duplicates are the ones silently dropped. -/
theorem load_aliases_last_writer (data : List (String × AliasRec)) (k : String) :
    dictLookup (load_aliases data) k =
      ((aliasWrites data).reverse.find? (fun p => p.1 = k)).map (fun p => p.2) := by
  rw [load_aliases_eq_foldl, dictLookup_foldl_dinsert]
  simp [dictLookup]

/-! ### Claim C6 — two-phase alias resolution -/

/-- Claim C6: alias resolution is two-phase.  (i) An exact lowercased
key match returns that key's canonical value.  (ii) Substring phase, on
the spec's own example: with table `ff7 ↦ Final Fantasy VII`, input
`"ff7 remastered"` rewrites the span in place, preserving the rest.
(iii) When no key matches exactly and no key occurs as a substring, the
input passes through unchanged. -/
theorem apply_alias_two_phase :
    (∀ (s : String) (amap : List (String × String)) (v : String),
        dictLookup amap (pyLower s) = some v → apply_alias s amap = v) ∧
    (apply_alias "ff7 remastered" [("ff7", "Final Fantasy VII")] =
        "Final Fantasy VII remastered") ∧
    (∀ (s : String) (amap : List (String × String)),
        dictLookup amap (pyLower s) = none →
        (∀ p ∈ amap, isSubstr p.1.data (pyLower s).data = false) →
        apply_alias s amap = s) := by
  refine ⟨?_, by decide, ?_⟩
  · intro s amap v h
    have hne : ¬amap.isEmpty := by
      cases amap with
      | nil => simp [dictLookup] at h
      | cons p m => simp
    simp [apply_alias, hne, h]
  · intro s amap h1 h2
    have hfind : amap.find? (fun p => isSubstr p.1.data (pyLower s).data) = none := by
      rw [List.find?_eq_none]
      intro p hp
      simp [h2 p hp]
    by_cases hne : amap.isEmpty
    · simp [apply_alias, hne]
    · simp [apply_alias, hne, h1, hfind]

/-- Claim C6 witness: concrete instances of the exact-match phase and
the pass-through phase. -/
theorem apply_alias_two_phase_witness :
    apply_alias "FF7" [("ff7", "Final Fantasy VII")] = "Final Fantasy VII" ∧
    apply_alias "zzz" [("ff7", "Final Fantasy VII")] = "zzz" :=
  ⟨apply_alias_two_phase.1 "FF7" [("ff7", "Final Fantasy VII")] "Final Fantasy VII"
      (by decide),
   apply_alias_two_phase.2.2 "zzz" [("ff7", "Final Fantasy VII")] (by decide)
      (by decide)⟩

/-! ### Claim C1 — deterministic tie-breaking in `best_match` -/

theorem keyLt_irrefl (a : Bool × Bool × Nat × Nat) : keyLt a a = false := by
  obtain ⟨a1, a2, a3, a4⟩ := a
  simp [keyLt, bLt]

theorem keyLt_trans (a b c : Bool × Bool × Nat × Nat) :
    keyLt a b = true → keyLt b c = true → keyLt a c = true := by
  obtain ⟨a1, a2, a3, a4⟩ := a
  obtain ⟨b1, b2, b3, b4⟩ := b
  obtain ⟨c1, c2, c3, c4⟩ := c
  simp only [keyLt, bLt]
  cases a1 <;> cases a2 <;> cases b1 <;> cases b2 <;> cases c1 <;> cases c2 <;>
    simp <;> omega

theorem keyLt_notlt_trans (a b c : Bool × Bool × Nat × Nat) :
    keyLt a b = false → keyLt b c = false → keyLt a c = false := by
  obtain ⟨a1, a2, a3, a4⟩ := a
  obtain ⟨b1, b2, b3, b4⟩ := b
  obtain ⟨c1, c2, c3, c4⟩ := c
  simp only [keyLt, bLt]
  cases a1 <;> cases a2 <;> cases b1 <;> cases b2 <;> cases c1 <;> cases c2 <;>
    simp <;> omega

theorem pyMaxBy_mem {κ : Type} (lt : κ → κ → Bool) (f : Cand → κ) :
    ∀ (ts : List Cand) (cur : Cand), pyMaxBy lt f cur ts ∈ cur :: ts := by
  intro ts
  induction ts with
  | nil => intro cur; simp [pyMaxBy]
  | cons t ts ih =>
    intro cur
    unfold pyMaxBy
    have h := ih (if lt (f cur) (f t) then t else cur)
    rcases List.mem_cons.1 h with h1 | h1
    · rw [h1]
      by_cases hc : lt (f cur) (f t) = true <;> simp [hc]
    · simp [List.mem_cons.2 (Or.inr (List.mem_cons.2 (Or.inr h1)))]

theorem pyMaxBy_not_lt (f : Cand → Bool × Bool × Nat × Nat) :
    ∀ (ts : List Cand) (cur : Cand) (x : Cand), x ∈ cur :: ts →
      keyLt (f (pyMaxBy keyLt f cur ts)) (f x) = false := by
  intro ts
  induction ts with
  | nil =>
    intro cur x hx
    simp at hx
    subst hx
    simp [pyMaxBy, keyLt_irrefl]
  | cons t ts ih =>
    intro cur x hx
    unfold pyMaxBy
    by_cases hc : keyLt (f cur) (f t) = true
    · rw [if_pos hc]
      rcases List.mem_cons.1 hx with h1 | h1
      · subst h1
        have hrt := ih t t (List.mem_cons_self t ts)
        by_contra hcon
        have hcon' : keyLt (f (pyMaxBy keyLt f t ts)) (f x) = true := by
          cases hval : keyLt (f (pyMaxBy keyLt f t ts)) (f x) with
          | false => exact absurd hval hcon
          | true => rfl
        exact absurd (keyLt_trans _ _ _ hcon' hc) (by simp [hrt])
      · rcases List.mem_cons.1 h1 with h2 | h2
        · subst h2; exact ih x x (List.mem_cons_self x ts)
        · exact ih t x (List.mem_cons.2 (Or.inr h2))
    · rw [if_neg hc]
      have hc' : keyLt (f cur) (f t) = false := by
        cases hval : keyLt (f cur) (f t) with
        | false => rfl
        | true => exact absurd hval hc
      rcases List.mem_cons.1 hx with h1 | h1
      · subst h1; exact ih x x (List.mem_cons_self x ts)
      · rcases List.mem_cons.1 h1 with h2 | h2
        · subst h2
          have hrc := ih cur cur (List.mem_cons_self cur ts)
          exact keyLt_notlt_trans _ _ _ hrc hc'
        · exact ih cur x (List.mem_cons.2 (Or.inr h2))

theorem insertByScore_length (x : Cand) :
    ∀ l : List Cand, (insertByScore x l).length = l.length + 1 := by
  intro l
  induction l with
  | nil => rfl
  | cons y ys ih =>
    unfold insertByScore
    by_cases h : y.2.1 ≤ x.2.1 <;> simp [h, ih]

theorem sortByScoreDesc_length (l : List Cand) :
    (sortByScoreDesc l).length = l.length := by
  induction l with
  | nil => rfl
  | cons x l ih =>
    unfold sortByScoreDesc at *
    simp [List.foldr_cons, insertByScore_length, ih]

theorem bmTied_ne_nil (score : String → String → Nat) (qn : String)
    (corpus : List String) (h : corpus ≠ []) : bmTied score qn corpus ≠ [] := by
  have htop : bmTop score qn corpus ≠ [] := by
    have hlen : (bmTop score qn corpus).length = min 8 corpus.length := by
      unfold bmTop extractTop
      rw [List.length_take, sortByScoreDesc_length, List.length_map, List.enum_length]
    intro hcon
    rw [hcon] at hlen
    have hz : corpus.length ≠ 0 := fun hz => h (List.eq_nil_of_length_eq_zero hz)
    simp at hlen
    omega
  unfold bmTied
  cases htt : bmTop score qn corpus with
  | nil => exact absurd htt htop
  | cons t0 rest =>
    simp [List.filter]

/-- Claim C1 counterexample: with the constant scorer, query `"q"`, and
the corpus `["ab", "ba"]` versus its permutation `["ba", "ab"]`, both
candidates are tied at the maximum score with equal tie-break keys (not
exact, empty token sets, equal length), and `max` keeps the first one in
corpus order — the selected candidate is `"ab"` under one order and
`"ba"` under the other, so the selection is NOT independent of corpus
order. -/
theorem best_match_order_dependent :
    best_match extract_seq_tokens constScorer "q" "q" ["ab", "ba"] = (0, 100) ∧
    best_match extract_seq_tokens constScorer "q" "q" ["ba", "ab"] = (0, 100) ∧
    selectedCand extract_seq_tokens constScorer "q" "q" ["ab", "ba"] = "ab" ∧
    selectedCand extract_seq_tokens constScorer "q" "q" ["ba", "ab"] = "ba" ∧
    ("ab" : String) ≠ "ba" :=
  ⟨by decide, by decide, by decide, by decide, by decide⟩

/-- Claim C1 amended: among the candidates retained by the top-8
extraction that are tied at the maximum score, `best_match` selects a
candidate that is maximal under the ordered tie-break key (exact
normalized equality; token-set equality when the query's token set is
nonempty; token intersection; normalized length) — the selection is a
deterministic function of its inputs, and in the spec's two-candidate
scenario (two candidates with identical score, exactly one an exact
normalized match) the exact match is selected under either corpus
order; but when tied candidates have equal tie-break keys the earlier
corpus entry wins, so full corpus-order independence fails. -/
theorem best_match_tiebreak :
    (∀ (dseq : String → Finset String) (score : String → String → Nat)
        (qr qn : String) (corpus : List String), corpus ≠ [] →
      ∃ b, bmBest dseq score qr qn corpus = some b ∧
        b ∈ bmTied score qn corpus ∧
        best_match dseq score qr qn corpus = ((b.2.2 : Int), b.2.1) ∧
        ∀ t ∈ bmTied score qn corpus,
          keyLt (candKey dseq qr qn b) (candKey dseq qr qn t) = false) ∧
    (∀ (dseq : String → Finset String) (score : String → String → Nat)
        (qr qn b : String), b ≠ qn → score qn b = score qn qn →
      best_match dseq score qr qn [qn, b] = (0, score qn qn) ∧
      best_match dseq score qr qn [b, qn] = (1, score qn qn)) := by
  constructor
  · intro dseq score qr qn corpus h
    have hne := bmTied_ne_nil score qn corpus h
    cases ht : bmTied score qn corpus with
    | nil => exact absurd ht hne
    | cons h0 hs =>
      have hb : bmBest dseq score qr qn corpus =
          some (pyMaxBy keyLt (candKey dseq qr qn) h0 hs) := by
        unfold bmBest
        rw [ht]
      refine ⟨pyMaxBy keyLt (candKey dseq qr qn) h0 hs, hb, ?_, ?_, ?_⟩
      · exact pyMaxBy_mem keyLt (candKey dseq qr qn) hs h0
      · unfold best_match
        rw [hb]
      · intro t htm
        exact pyMaxBy_not_lt (candKey dseq qr qn) hs h0 t htm
  · intro dseq score qr qn b hb hs
    have hb' : (decide (b = qn)) = false := by simp [hb]
    constructor
    · simp [best_match, bmBest, bmTied, bmTop, extractTop, List.enum, sortByScoreDesc,
        insertByScore, hs, pyMaxBy, candKey, keyLt, bLt, hb']
    · simp [best_match, bmBest, bmTied, bmTop, extractTop, List.enum, sortByScoreDesc,
        insertByScore, hs, pyMaxBy, candKey, keyLt, bLt, hb']

/-- Claim C1 witness: the maximality part instantiated on a singleton
corpus, and the two-candidate exact-match scenario instantiated with
query `"a"` and candidate `"b"` — the exact match wins under both corpus
orders. -/
theorem best_match_tiebreak_witness :
    (bmBest extract_seq_tokens constScorer "q" "q" ["x"]).isSome = true ∧
    best_match extract_seq_tokens constScorer "a" "a" ["a", "b"] = (0, 100) ∧
    best_match extract_seq_tokens constScorer "a" "a" ["b", "a"] = (1, 100) := by
  obtain ⟨bsel, hsel, -, -, -⟩ :=
    best_match_tiebreak.1 extract_seq_tokens constScorer "q" "q" ["x"] (by simp)
  have h2 := best_match_tiebreak.2 extract_seq_tokens constScorer "a" "a" "b"
    (by decide) rfl
  exact ⟨by rw [hsel]; rfl, h2.1, h2.2⟩

/-! ### Claims C4 and C5 — the per-record decision policy -/

/-- Claim C4: for a record whose best candidate has a nonempty mapped
primary name, a score of at least the threshold is auto-accepted with
`chosen` equal to that mapped primary name (so a score exactly equal to
the threshold is accepted), and a score below the threshold (in
particular one point below) is routed to review with `chosen` unset. -/
theorem threshold_boundary (dseq : String → Finset String)
    (scorer : String → String → Nat) (th : Nat) (amap : List (String × String))
    (cn_list cn_norm_seq : List String) (cn2en : String → String) (rf : String)
    (hen : matchedEn cn2en cn_list (bmOf dseq scorer amap cn_norm_seq rf) ≠ "") :
    (th ≤ (bmOf dseq scorer amap cn_norm_seq rf).2 →
      (processOne dseq scorer th amap cn_list cn_norm_seq cn2en rf).state = .autoAccepted ∧
      (processOne dseq scorer th amap cn_list cn_norm_seq cn2en rf).chosen =
        some (matchedEn cn2en cn_list (bmOf dseq scorer amap cn_norm_seq rf))) ∧
    ((bmOf dseq scorer amap cn_norm_seq rf).2 < th →
      (processOne dseq scorer th amap cn_list cn_norm_seq cn2en rf).state = .pendingReview ∧
      (processOne dseq scorer th amap cn_list cn_norm_seq cn2en rf).chosen = none) := by
  have hidx : 0 ≤ (bmOf dseq scorer amap cn_norm_seq rf).1 := by
    by_contra h
    exact hen (by simp [matchedEn, h])
  constructor
  · intro hth
    simp only [processOne, hidx, if_pos, if_true, hen, if_neg, if_false]
    rw [if_pos hth]
    exact ⟨rfl, rfl⟩
  · intro hth
    simp only [processOne, hidx, if_pos, if_true, hen, if_neg, if_false]
    rw [if_neg (by omega)]
    exact ⟨rfl, rfl⟩

/-- Claim C4 witness: with threshold 90, a constant scorer of 90 is
auto-accepted with the mapped primary name, and a constant scorer of 89
is routed to review. -/
theorem threshold_boundary_witness :
    ((processOne (digitsSetFor false) (fun _ _ => 90) 90 [] ["甲"] ["x"]
        (fun _ => "Alpha") "game.bin").state = .autoAccepted ∧
     (processOne (digitsSetFor false) (fun _ _ => 90) 90 [] ["甲"] ["x"]
        (fun _ => "Alpha") "game.bin").chosen = some "Alpha") ∧
    ((processOne (digitsSetFor false) (fun _ _ => 89) 90 [] ["甲"] ["x"]
        (fun _ => "Alpha") "game.bin").state = .pendingReview ∧
     (processOne (digitsSetFor false) (fun _ _ => 89) 90 [] ["甲"] ["x"]
        (fun _ => "Alpha") "game.bin").chosen = none) := by
  constructor
  · have h := (threshold_boundary (digitsSetFor false) (fun _ _ => 90) 90 [] ["甲"]
      ["x"] (fun _ => "Alpha") "game.bin" (by decide)).1 (by decide)
    have he : matchedEn (fun _ => "Alpha") ["甲"]
        (bmOf (digitsSetFor false) (fun _ _ => 90) [] ["x"] "game.bin") = "Alpha" := by
      decide
    exact ⟨h.1, by rw [h.2, he]⟩
  · exact (threshold_boundary (digitsSetFor false) (fun _ _ => 89) 90 [] ["甲"]
      ["x"] (fun _ => "Alpha") "game.bin" (by decide)).2 (by decide)

/-- Claim C5: when the corpus yields no candidate with a nonempty mapped
primary name (`csv_en` is empty, in particular when the corpus is
empty), the record is finalized as `NO_MATCH` with `chosen` equal to the
original pre-match title text (the stem), empty detected names, and
recorded score 0; `processOne` is a total function, so the outcome is a
per-record value, not an exception. -/
theorem no_match_fallback (dseq : String → Finset String)
    (scorer : String → String → Nat) (th : Nat) (amap : List (String × String))
    (cn_list cn_norm_seq : List String) (cn2en : String → String) (rf : String)
    (hen : matchedEn cn2en cn_list (bmOf dseq scorer amap cn_norm_seq rf) = "") :
    processOne dseq scorer th amap cn_list cn_norm_seq cn2en rf =
      ⟨rf, stemOf rf, "", "", 0, [], some (stemOf rf), .noMatch⟩ := by
  simp only [processOne]
  rw [if_pos hen]

/-- Claim C5 witness: an empty corpus yields the `NO_MATCH` fallback
record for `"foo.nes"`, keeping the stem `"foo"`. -/
theorem no_match_fallback_witness :
    processOne (digitsSetFor false) constScorer 90 [] [] [] (fun _ => "") "foo.nes" =
      ⟨"foo.nes", "foo", "", "", 0, [], some "foo", .noMatch⟩ := by
  have h := no_match_fallback (digitsSetFor false) constScorer 90 [] [] []
    (fun _ => "") "foo.nes" (by decide)
  rw [h]
  have : stemOf "foo.nes" = "foo" := by decide
  rw [this]

/-! ### Claim C8 — round-trip of the output catalog -/

theorem resolveOne_rf (disp : Option String) (r : RRec) : (resolveOne disp r).rf = r.rf := by
  unfold resolveOne
  cases disp with
  | none => rfl
  | some d =>
    by_cases hd : d = ""
    · simp [hd]
    · simp only [hd, if_false]
      cases r.candidates.find? (fun c => c.2.1 = d) <;> simp

theorem applyReview_rf (ans : Nat → Option String) :
    ∀ (k : Nat) (rs : List RRec),
      (applyReview ans k rs).map RRec.rf = rs.map RRec.rf := by
  intro k rs
  induction rs generalizing k with
  | nil => rfl
  | cons r rs ih =>
    unfold applyReview
    cases hs : r.state <;> simp [ih, resolveOne_rf]

theorem processOne_rf (dseq : String → Finset String)
    (scorer : String → String → Nat) (th : Nat) (amap : List (String × String))
    (cn_list cn_norm_seq : List String) (cn2en : String → String) (rf : String) :
    (processOne dseq scorer th amap cn_list cn_norm_seq cn2en rf).rf = rf := by
  simp only [processOne]
  split_ifs <;> rfl

/-- Claim C8: the output catalog has exactly one `<game>` entry per
input title, in input order — the entry paths are precisely the escaped
`./`-prefixed input titles, whatever each record's resolution outcome
and whatever the operator answered during review. -/
theorem catalog_roundtrip (dseq : String → Finset String)
    (scorer : String → String → Nat) (th : Nat) (amap : List (String × String))
    (cn_list cn_norm_seq : List String) (cn2en : String → String)
    (ans : Nat → Option String) (roms : List String) :
    (runCatalog dseq scorer th amap cn_list cn_norm_seq cn2en ans roms).map Prod.fst =
      roms.map (fun rf => xesc ("./" ++ rf)) := by
  unfold runCatalog
  have h1 : ∀ l : List RRec, (l.map gameEntry).map Prod.fst =
      (l.map RRec.rf).map (fun s => xesc ("./" ++ s)) := by
    intro l
    induction l with
    | nil => rfl
    | cons r l ih => simp [gameEntry, ih]
  rw [h1, applyReview_rf, List.map_map, List.map_map]
  apply List.map_congr_left
  intro rf _
  simp [processOne_rf]

/-! ### Claim C9 — fatal exit codes -/

/-- Claim C9: a missing reference CSV exits with code 2, and an empty
parsed title list exits with code 2; in both cases the run result is the
bare error code — the `.error` constructor carries no catalog, so no
output is produced. -/
theorem fatal_exit_codes (cn_list : List String) (cn2en : String → String)
    (aliasData : List (String × AliasRec)) (seqOn : Bool)
    (scorer : String → String → Nat) (lines : List String) (th : Nat)
    (ans : Nat → Option String) :
    (mainRun false cn_list cn2en aliasData seqOn scorer lines th ans = .error 2) ∧
    (parse_ls lines = [] →
      ∀ csvE : Bool, mainRun csvE cn_list cn2en aliasData seqOn scorer lines th ans =
        .error 2) ∧
    (2 : Nat) ≠ 0 := by
  refine ⟨rfl, ?_, by omega⟩
  intro hroms csvE
  cases csvE with
  | false => rfl
  | true =>
    simp only [mainRun]
    rw [if_neg (by simp)]
    simp [hroms]

/-- Claim C9 witness: concrete runs — CSV missing, and a whitespace-only
title list — both exit with code 2. -/
theorem fatal_exit_codes_witness :
    mainRun false [] (fun _ => "") [] false constScorer ["x"] 90 (fun _ => none) =
      .error 2 ∧
    mainRun true [] (fun _ => "") [] false constScorer ["  "] 90 (fun _ => none) =
      .error 2 :=
  ⟨(fatal_exit_codes [] (fun _ => "") [] false constScorer ["x"] 90 (fun _ => none)).1,
   (fatal_exit_codes [] (fun _ => "") [] false constScorer ["  "] 90
      (fun _ => none)).2.1 (by decide) true⟩

/-! ### Claim C10 — tie-break without `--seq` -/

theorem keyLt_no_digits (qr qn : String) (x y : Cand) :
    keyLt (candKey (digitsSetFor false) qr qn x) (candKey (digitsSetFor false) qr qn y) =
      keyLtEL (candKeyEL qn x) (candKeyEL qn y) := by
  simp [digitsSetFor, candKey, candKeyEL, keyLt, keyLtEL, bLt]

theorem pyMaxBy_no_digits (qr qn : String) :
    ∀ (ts : List Cand) (cur : Cand),
      pyMaxBy keyLt (candKey (digitsSetFor false) qr qn) cur ts =
        pyMaxBy keyLtEL (candKeyEL qn) cur ts := by
  intro ts
  induction ts with
  | nil => intro cur; rfl
  | cons t ts ih =>
    intro cur
    unfold pyMaxBy
    rw [keyLt_no_digits, ih]

/-- Claim C10: without `--seq`, the token extractor wired into
`best_match` returns the empty set on every input, and `best_match` then
coincides with the variant whose tie-break key is only (exact normalized
equality, candidate length) — steps (b) and (c) never distinguish any
two candidates. -/
theorem no_seq_tiebreak_reduces :
    (∀ s, digitsSetFor false s = ∅) ∧
    (∀ (scorer : String → String → Nat) (qr qn : String) (corpus : List String),
      best_match (digitsSetFor false) scorer qr qn corpus =
        best_matchEL scorer qn corpus) := by
  constructor
  · intro s; simp [digitsSetFor]
  · intro scorer qr qn corpus
    unfold best_match bmBest best_matchEL
    cases bmTied scorer qn corpus with
    | nil => rfl
    | cons h hs => simp [pyMaxBy_no_digits]

/-! ### Claim C7 — normalization idempotence

`norm` is not idempotent in general (the counterexample below), but it is
idempotent on every input whose normalized form is free of metadata
markers.  The development shows that each stage of `normL` fixes
`normL s`: the character folds (every character of the output is a
fold image or a space, and fold images are fixed points), the
whitespace passes (the output is collapsed and has no whitespace at its
ends), the metadata passes (by the meta-freeness hypothesis), and the
quote strip (the output ends are neither quotes nor whitespace). -/

theorem tFixed_space : tFixed ' ' := by
  refine ⟨by decide, by decide, by decide⟩

theorem tFixed_tFold (a : Char) : tFixed (tFold a) := by
  by_cases hk : a = '，' ∨ a = '！' ∨ a = '？' ∨ a = '（' ∨ a = '）' ∨ a = '：' ∨
      a = '；' ∨ a = '【' ∨ a = '】' ∨ a = '、' ∨ a = '—' ∨ a = '－' ∨ a = '～' ∨
      a = '　'
  · rcases hk with rfl | rfl | rfl | rfl | rfl | rfl | rfl | rfl | rfl | rfl |
      rfl | rfl | rfl | rfl <;>
      exact ⟨by decide, by decide, by decide⟩
  · push_neg at hk
    obtain ⟨h1, h2, h3, h4, h5, h6, h7, h8, h9, h10, h11, h12, h13, h14⟩ := hk
    have hfw : fwFold a = a := by
      simp [fwFold, h1, h2, h3, h4, h5, h6, h7, h8, h9, h10, h11, h12, h13, h14]
    have hrg : fwRangeFold a = a := by
      simp [fwRangeFold, hfw]
    have hid : ideographicSpaceFold a = a := by
      simp [ideographicSpaceFold, h14]
    have ht : tFold a = a := by
      simp [tFold, hfw, hrg, hid]
    rw [ht]
    exact ⟨hfw, hrg, hid⟩

theorem mem_collapseAux :
    ∀ (b : Bool) (l : List Char) (c : Char), c ∈ collapseAux b l → c ∈ l ∨ c = ' ' := by
  intro b l
  induction l generalizing b with
  | nil => intro c hc; simp [collapseAux] at hc
  | cons x xs ih =>
    intro c hc
    unfold collapseAux at hc
    by_cases hw : pyWs x
    · rw [if_pos hw] at hc
      cases b with
      | true =>
        simp only [if_pos rfl] at hc
        rcases ih true c hc with h | h
        · exact Or.inl (List.mem_cons.2 (Or.inr h))
        · exact Or.inr h
      | false =>
        simp only [Bool.false_eq_true, if_neg] at hc
        rcases List.mem_cons.1 hc with h | h
        · exact Or.inr h
        · rcases ih true c h with h' | h'
          · exact Or.inl (List.mem_cons.2 (Or.inr h'))
          · exact Or.inr h'
    · rw [if_neg hw] at hc
      rcases List.mem_cons.1 hc with h | h
      · exact Or.inl (List.mem_cons.2 (Or.inl h))
      · rcases ih false c h with h' | h'
        · exact Or.inl (List.mem_cons.2 (Or.inr h'))
        · exact Or.inr h'

theorem mem_stripEnds (p : Char → Bool) (l : List Char) (c : Char)
    (hc : c ∈ stripEnds p l) : c ∈ l := by
  unfold stripEnds at hc
  rw [List.mem_reverse] at hc
  have h1 := (List.dropWhile_sublist (l := (l.dropWhile p).reverse) p).subset hc
  rw [List.mem_reverse] at h1
  exact (List.dropWhile_sublist p).subset h1

theorem mem_removeSpanMetaF (op cl : Char) :
    ∀ (fuel : Nat) (l : List Char) (c : Char),
      c ∈ removeSpanMetaF op cl fuel l → c ∈ l := by
  intro fuel
  induction fuel with
  | zero =>
    intro l c hc
    cases l with
    | nil => simp [removeSpanMetaF] at hc
    | cons x xs => exact hc
  | succ fuel ih =>
    intro l c hc
    cases l with
    | nil => simp [removeSpanMetaF] at hc
    | cons x xs =>
      unfold removeSpanMetaF at hc
      by_cases hop : x = op
      · rw [if_pos hop] at hc
        cases hbr : breakAtChar cl xs with
        | none => rw [hbr] at hc; exact hc
        | some p =>
          obtain ⟨content, after⟩ := p
          rw [hbr] at hc
          have hc' : c ∈ (if containsMeta content = true
              then removeSpanMetaF op cl fuel after
              else x :: removeSpanMetaF op cl fuel xs) := hc
          by_cases hm : containsMeta content
          · rw [if_pos hm] at hc'
            have := ih after c hc'
            have hxs := breakAtChar_eq cl xs content after hbr
            rw [hxs]
            exact List.mem_cons.2 (Or.inr (List.mem_append.2 (Or.inr
              (List.mem_cons.2 (Or.inr this)))))
          · rw [if_neg hm] at hc'
            rcases List.mem_cons.1 hc' with h | h
            · exact List.mem_cons.2 (Or.inl h)
            · exact List.mem_cons.2 (Or.inr (ih xs c h))
      · rw [if_neg hop] at hc
        rcases List.mem_cons.1 hc with h | h
        · exact List.mem_cons.2 (Or.inl h)
        · exact List.mem_cons.2 (Or.inr (ih xs c h))

theorem collapseAux_head_true (l : List Char) :
    ∀ c, (collapseAux true l).head? = some c → pyWs c = false := by
  induction l with
  | nil => intro c hc; simp [collapseAux] at hc
  | cons x xs ih =>
    intro c hc
    unfold collapseAux at hc
    by_cases hw : pyWs x
    · rw [if_pos hw] at hc
      simp only [if_pos rfl] at hc
      exact ih c hc
    · rw [if_neg hw] at hc
      simp only [List.head?_cons, Option.some.injEq] at hc
      subst hc
      exact Bool.eq_false_iff.2 hw

theorem wsOnly_collapseAux :
    ∀ (b : Bool) (l : List Char) (c : Char), c ∈ collapseAux b l →
      pyWs c = true → c = ' ' := by
  intro b l
  induction l generalizing b with
  | nil => intro c hc; simp [collapseAux] at hc
  | cons x xs ih =>
    intro c hc hwc
    unfold collapseAux at hc
    by_cases hw : pyWs x
    · rw [if_pos hw] at hc
      cases b with
      | true => exact ih true c (by simpa using hc) hwc
      | false =>
        simp only [Bool.false_eq_true, if_neg] at hc
        rcases List.mem_cons.1 hc with h | h
        · exact h
        · exact ih true c h hwc
    · rw [if_neg hw] at hc
      rcases List.mem_cons.1 hc with h | h
      · subst h; exact absurd hwc (by simp [hw])
      · exact ih false c h hwc

theorem chain_collapseAux :
    ∀ (b : Bool) (l : List Char),
      (collapseAux b l).Chain' (fun a b => ¬(a = ' ' ∧ b = ' ')) := by
  intro b l
  induction l generalizing b with
  | nil => simp [collapseAux]
  | cons x xs ih =>
    unfold collapseAux
    by_cases hw : pyWs x
    · rw [if_pos hw]
      cases b with
      | true => simpa using ih true
      | false =>
        simp only [Bool.false_eq_true, if_false]
        rw [List.chain'_cons']
        refine ⟨?_, ih true⟩
        intro y hy hcon
        have := collapseAux_head_true xs y hy
        rw [hcon.2] at this
        simp [pyWs] at this
    · rw [if_neg hw]
      rw [List.chain'_cons']
      refine ⟨?_, ih false⟩
      intro y hy hcon
      rw [hcon.1] at hw
      simp [pyWs] at hw

theorem okWs_collapseWs (l : List Char) : okWs (collapseWs l) :=
  ⟨wsOnly_collapseAux false l, chain_collapseAux false l⟩

theorem collapseAux_true_eq_false (l : List Char)
    (h : ∀ c, l.head? = some c → pyWs c = false) :
    collapseAux true l = collapseAux false l := by
  cases l with
  | nil => rfl
  | cons x xs =>
    have := h x rfl
    unfold collapseAux
    rw [if_neg (by simp [this]), if_neg (by simp [this])]

theorem collapseWs_fix : ∀ (l : List Char), okWs l → collapseWs l = l := by
  intro l
  induction l with
  | nil => intro _; rfl
  | cons x xs ih =>
    intro h
    have hxs : okWs xs :=
      ⟨fun c hc => h.1 c (List.mem_cons.2 (Or.inr hc)), h.2.tail⟩
    unfold collapseWs collapseAux
    by_cases hw : pyWs x
    · have hx : x = ' ' := h.1 x (List.mem_cons_self x xs) hw
      rw [if_pos hw]
      simp only [Bool.false_eq_true, if_neg]
      have hhead : ∀ c, xs.head? = some c → pyWs c = false := by
        intro c hc
        cases xs with
        | nil => simp at hc
        | cons y ys =>
          simp only [List.head?_cons, Option.some.injEq] at hc
          have hrel := (List.chain'_cons'.1 h.2).1 y (by simp)
          by_contra hcon
          have hcw : pyWs c = true := by
            cases hval : pyWs c with
            | false => exact absurd hval hcon
            | true => rfl
          rw [← hc] at hcw
          exact hrel ⟨hx, hxs.1 y (List.mem_cons_self y ys) hcw⟩
      rw [collapseAux_true_eq_false xs hhead, hx]
      have := ih hxs
      unfold collapseWs at this
      rw [this]
      simp
    · rw [if_neg hw]
      have := ih hxs
      unfold collapseWs at this
      rw [this]

theorem chain_symm_reverse (l : List Char)
    (h : l.Chain' (fun a b => ¬(a = ' ' ∧ b = ' '))) :
    l.reverse.Chain' (fun a b => ¬(a = ' ' ∧ b = ' ')) := by
  rw [List.chain'_reverse]
  exact h.imp (fun a b hab hba => hab ⟨hba.2, hba.1⟩)

theorem okWs_stripEnds (p : Char → Bool) (l : List Char) (h : okWs l) :
    okWs (stripEnds p l) := by
  constructor
  · intro c hc
    exact h.1 c (mem_stripEnds p l c hc)
  · unfold stripEnds
    have h1 := h.2.suffix (List.dropWhile_suffix p)
    have h2 := chain_symm_reverse _ h1
    have h3 := h2.suffix (List.dropWhile_suffix p)
    exact chain_symm_reverse _ h3

theorem dropWhile_head_false (p : Char → Bool) (l : List Char) :
    ∀ c, (l.dropWhile p).head? = some c → p c = false := by
  induction l with
  | nil => intro c hc; simp at hc
  | cons x xs ih =>
    intro c hc
    by_cases hp : p x
    · rw [List.dropWhile_cons, if_pos hp] at hc
      exact ih c hc
    · rw [List.dropWhile_cons, if_neg hp] at hc
      simp only [List.head?_cons, Option.some.injEq] at hc
      subst hc
      exact Bool.eq_false_iff.2 hp

theorem dropWhile_eq_self_of_head (p : Char → Bool) (l : List Char)
    (h : ∀ c, l.head? = some c → p c = false) : l.dropWhile p = l := by
  cases l with
  | nil => rfl
  | cons x xs =>
    rw [List.dropWhile_cons, if_neg (by simp [h x rfl])]

theorem stripEnds_prefix (p : Char → Bool) (l : List Char) :
    ∃ w, l.dropWhile p = stripEnds p l ++ w := by
  obtain ⟨w, hw⟩ := List.dropWhile_suffix (l := (l.dropWhile p).reverse) p
  refine ⟨w.reverse, ?_⟩
  unfold stripEnds
  have := congrArg List.reverse hw
  simpa using this.symm

theorem stripEnds_head (p : Char → Bool) (l : List Char) (c : Char)
    (hc : (stripEnds p l).head? = some c) : p c = false := by
  obtain ⟨w, hw⟩ := stripEnds_prefix p l
  apply dropWhile_head_false p l c
  rw [hw, List.head?_append, hc]
  rfl

theorem stripEnds_last (p : Char → Bool) (l : List Char) (c : Char)
    (hc : (stripEnds p l).getLast? = some c) : p c = false := by
  unfold stripEnds at hc
  rw [List.getLast?_reverse] at hc
  exact dropWhile_head_false p _ c hc

theorem stripEnds_no_strip (p : Char → Bool) (l : List Char)
    (hh : ∀ c, l.head? = some c → p c = false)
    (hl : ∀ c, l.getLast? = some c → p c = false) : stripEnds p l = l := by
  unfold stripEnds
  rw [dropWhile_eq_self_of_head p l hh,
    dropWhile_eq_self_of_head p l.reverse
      (fun c hc => hl c (by rwa [List.head?_reverse] at hc)),
    List.reverse_reverse]

theorem getLast?_cons_of_some (a : Char) (X : List Char) (c : Char)
    (h : X.getLast? = some c) : (a :: X).getLast? = some c := by
  cases X with
  | nil => simp at h
  | cons y ys => rw [List.getLast?_cons_cons]; exact h

theorem collapseWs_head (l : List Char) (c : Char) (hc : l.head? = some c)
    (hw : pyWs c = false) : (collapseWs l).head? = some c := by
  cases l with
  | nil => simp at hc
  | cons x xs =>
    simp only [List.head?_cons, Option.some.injEq] at hc
    subst hc
    unfold collapseWs collapseAux
    rw [if_neg (by simp [hw])]
    rfl

theorem collapseAux_last :
    ∀ (l : List Char) (b : Bool) (c : Char), l.getLast? = some c →
      pyWs c = false → (collapseAux b l).getLast? = some c := by
  intro l
  induction l with
  | nil => intro b c hc; simp at hc
  | cons x xs ih =>
    intro b c hc hw
    cases xs with
    | nil =>
      simp only [List.getLast?_singleton, Option.some.injEq] at hc
      subst hc
      unfold collapseAux
      rw [if_neg (by simp [hw])]
      rfl
    | cons y ys =>
      rw [List.getLast?_cons_cons] at hc
      have htail := fun b => ih b c hc hw
      unfold collapseAux
      by_cases hwx : pyWs x
      · rw [if_pos hwx]
        cases b with
        | true => simpa using htail true
        | false =>
          simp only [Bool.false_eq_true, if_false]
          exact getLast?_cons_of_some _ _ _ (htail true)
      · rw [if_neg hwx]
        exact getLast?_cons_of_some _ _ _ (htail false)

theorem isPrefixCI_append (m : List Char) :
    ∀ (u v : List Char), isPrefixCI m u = true → isPrefixCI m (u ++ v) = true := by
  induction m with
  | nil => intro u v _; rfl
  | cons p ps ih =>
    intro u v h
    cases u with
    | nil => simp [isPrefixCI] at h
    | cons c cs =>
      simp only [isPrefixCI, Bool.and_eq_true, decide_eq_true_eq] at h
      simp only [List.cons_append, isPrefixCI, Bool.and_eq_true, decide_eq_true_eq]
      exact ⟨h.1, ih cs v h.2⟩

theorem vDigitAt_append (u v : List Char) (h : vDigitAt u = true) :
    vDigitAt (u ++ v) = true := by
  rcases u with _ | ⟨c, _ | ⟨d, rest⟩⟩ <;> simp [vDigitAt] at h ⊢
  exact h

theorem verDigitAt_append (u v : List Char) (h : verDigitAt u = true) :
    verDigitAt (u ++ v) = true := by
  rcases u with _ | ⟨c1, _ | ⟨c2, _ | ⟨c3, _ | ⟨c4, rest⟩⟩⟩⟩
  · simp [verDigitAt] at h
  · simp [verDigitAt] at h
  · simp [verDigitAt] at h
  · simp [verDigitAt] at h
  · cases rest with
    | nil =>
      simp only [verDigitAt, Bool.and_eq_true, Bool.or_eq_true] at h
      rcases h.2 with hd | hd
      · simp only [List.cons_append, List.nil_append, verDigitAt, Bool.and_eq_true,
          Bool.or_eq_true]
        exact ⟨h.1, Or.inl hd⟩
      · simp at hd
    | cons c5 rest' =>
      simpa [verDigitAt] using h

theorem metaAt_append (u v : List Char) (h : metaAt u = true) :
    metaAt (u ++ v) = true := by
  unfold metaAt at h ⊢
  simp only [Bool.or_eq_true, List.any_eq_true] at h ⊢
  rcases h with (⟨m, hm, hp⟩ | hv) | hr
  · exact Or.inl (Or.inl ⟨m, hm, isPrefixCI_append m u v hp⟩)
  · exact Or.inl (Or.inr (vDigitAt_append u v hv))
  · exact Or.inr (verDigitAt_append u v hr)

theorem containsMeta_append_left :
    ∀ (u v : List Char), containsMeta u = true → containsMeta (u ++ v) = true := by
  intro u
  induction u with
  | nil => intro v h; simp [containsMeta] at h
  | cons c cs ih =>
    intro v h
    rw [List.cons_append]
    unfold containsMeta at h ⊢
    simp only [Bool.or_eq_true] at h ⊢
    rcases h with h | h
    · exact Or.inl (by simpa using metaAt_append (c :: cs) v h)
    · exact Or.inr (ih v h)

theorem containsMeta_cons_false (c : Char) (cs : List Char)
    (h : containsMeta (c :: cs) = false) : containsMeta cs = false := by
  unfold containsMeta at h
  simp only [Bool.or_eq_false_iff] at h
  exact h.2

theorem removeSpanMetaF_id (op cl : Char) :
    ∀ (fuel : Nat) (l : List Char), containsMeta l = false →
      removeSpanMetaF op cl fuel l = l := by
  intro fuel
  induction fuel with
  | zero =>
    intro l _
    cases l <;> rfl
  | succ fuel ih =>
    intro l h
    cases l with
    | nil => rfl
    | cons x xs =>
      have hx : containsMeta xs = false := containsMeta_cons_false x xs h
      unfold removeSpanMetaF
      by_cases hop : x = op
      · rw [if_pos hop]
        cases hbr : breakAtChar cl xs with
        | none => rfl
        | some p =>
          obtain ⟨content, after⟩ := p
          have hxs := breakAtChar_eq cl xs content after hbr
          have hcontent : containsMeta content = false := by
            cases hval : containsMeta content with
            | false => rfl
            | true =>
              have := containsMeta_append_left content (cl :: after) hval
              rw [← hxs] at this
              rw [this] at hx
              exact absurd hx (by simp)
          show (if containsMeta content = true then removeSpanMetaF op cl fuel after
              else x :: removeSpanMetaF op cl fuel xs) = x :: xs
          rw [if_neg (by simp [hcontent]), ih xs hx]
      · rw [if_neg hop, ih xs hx]

theorem removeParenMeta_id (l : List Char) (h : containsMeta l = false) :
    removeParenMeta l = l :=
  removeSpanMetaF_id '(' ')' l.length l h

theorem removeBracketMeta_id (l : List Char) (h : containsMeta l = false) :
    removeBracketMeta l = l :=
  removeSpanMetaF_id '[' ']' l.length l h

theorem String_mk_data (X : List Char) : (String.mk X).data = X := rfl

theorem norm_data (s : String) : (norm s).data = normL s.data := by
  show (String.mk (normL s.data)).data = normL s.data
  exact String_mk_data (normL s.data)

theorem map_fix {f : Char → Char} : ∀ (l : List Char), (∀ c ∈ l, f c = c) →
    l.map f = l := by
  intro l h
  induction l with
  | nil => rfl
  | cons x xs ih => simp_all

theorem mem_removeParenMeta (X : List Char) (c : Char) (hc : c ∈ removeParenMeta X) :
    c ∈ X :=
  mem_removeSpanMetaF '(' ')' X.length X c hc

theorem mem_removeBracketMeta (X : List Char) (c : Char) (hc : c ∈ removeBracketMeta X) :
    c ∈ X :=
  mem_removeSpanMetaF '[' ']' X.length X c hc

theorem tFixed_normL (l : List Char) : ∀ c ∈ normL l, tFixed c := by
  intro c hc
  simp only [normL] at hc
  have h1 := mem_stripEnds pyWs _ c hc
  rcases mem_collapseAux false _ c h1 with h2 | h2
  · have h3 := mem_stripEnds quoteSet _ c h2
    have h4 := mem_removeBracketMeta _ c h3
    have h5 := mem_removeParenMeta _ c h4
    rcases mem_collapseAux false _ c h5 with h6 | h6
    · have h7 := mem_stripEnds pyWs _ c h6
      rw [List.map_map, List.map_map] at h7
      obtain ⟨a, _, ha⟩ := List.mem_map.1 h7
      rw [← ha]
      exact tFixed_tFold a
    · rw [h6]; exact tFixed_space
  · rw [h2]; exact tFixed_space

/-- The combined ends facts for `normL l`: the normalized form equals
the collapse of its quote-stripped stage, and its first and last
characters (when present) are neither whitespace nor quote characters. -/
theorem normL_ends (l : List Char) :
    normL l = collapseWs (stripQuotes (removeBracketMeta (removeParenMeta
      (collapseWs (stripWs (((l.map fwFold).map fwRangeFold).map ideographicSpaceFold)))))) ∧
    (∀ c, (normL l).head? = some c → quoteSet c = false ∧ pyWs c = false) ∧
    (∀ c, (normL l).getLast? = some c → quoteSet c = false ∧ pyWs c = false) := by
  have hok4 : okWs (collapseWs (stripWs
      (((l.map fwFold).map fwRangeFold).map ideographicSpaceFold))) :=
    okWs_collapseWs _
  set s4 := collapseWs (stripWs (((l.map fwFold).map fwRangeFold).map ideographicSpaceFold))
    with hs4
  set s5 := removeBracketMeta (removeParenMeta s4) with hs5
  set s6 := stripQuotes s5 with hs6
  have hws5 : ∀ c ∈ s5, pyWs c = true → c = ' ' := by
    intro c hc hw
    exact hok4.1 c (mem_removeParenMeta _ c (mem_removeBracketMeta _ c hc)) hw
  have h6head : ∀ c, s6.head? = some c → quoteSet c = false ∧ pyWs c = false := by
    intro c hc
    have hq := stripEnds_head quoteSet s5 c hc
    have hmem : c ∈ s5 := mem_stripEnds quoteSet s5 c (List.mem_of_mem_head? (by exact hc))
    refine ⟨hq, ?_⟩
    cases hval : pyWs c with
    | false => rfl
    | true =>
      have := hws5 c hmem hval
      rw [this] at hq
      simp [quoteSet] at hq
  have h6last : ∀ c, s6.getLast? = some c → quoteSet c = false ∧ pyWs c = false := by
    intro c hc
    have hq := stripEnds_last quoteSet s5 c hc
    have hmem : c ∈ s5 := mem_stripEnds quoteSet s5 c (List.mem_of_getLast?_eq_some hc)
    refine ⟨hq, ?_⟩
    cases hval : pyWs c with
    | false => rfl
    | true =>
      have := hws5 c hmem hval
      rw [this] at hq
      simp [quoteSet] at hq
  have hc6head : ∀ c, (collapseWs s6).head? = some c →
      quoteSet c = false ∧ pyWs c = false := by
    intro c hc
    cases hs : s6 with
    | nil => rw [hs] at hc; simp [collapseWs, collapseAux] at hc
    | cons y ys =>
      have hy := h6head y (by rw [hs]; rfl)
      have hkeep := collapseWs_head s6 y (by rw [hs]; rfl) hy.2
      rw [hkeep] at hc
      simp only [Option.some.injEq] at hc
      rw [← hc]
      exact hy
  have hc6last : ∀ c, (collapseWs s6).getLast? = some c →
      quoteSet c = false ∧ pyWs c = false := by
    intro c hc
    cases hlast : s6.getLast? with
    | none =>
      have h0 : s6 = [] := List.getLast?_eq_none_iff.1 hlast
      rw [h0] at hc
      simp [collapseWs, collapseAux] at hc
    | some y =>
      have hy := h6last y hlast
      have hkeep := collapseAux_last s6 false y hlast hy.2
      have : (collapseWs s6).getLast? = some y := hkeep
      rw [this] at hc
      simp only [Option.some.injEq] at hc
      rw [← hc]
      exact hy
  have hn1 : normL l = collapseWs s6 := by
    show stripWs (collapseWs s6) = collapseWs s6
    exact stripEnds_no_strip pyWs _ (fun c hc => (hc6head c hc).2)
      (fun c hc => (hc6last c hc).2)
  refine ⟨hn1, ?_, ?_⟩
  · intro c hc
    rw [hn1] at hc
    exact hc6head c hc
  · intro c hc
    rw [hn1] at hc
    exact hc6last c hc

theorem normL_fix (l : List Char) (h : containsMeta (normL l) = false) :
    normL (normL l) = normL l := by
  obtain ⟨hn1, hhead, hlast⟩ := normL_ends l
  have hA := tFixed_normL l
  have hm1 : (normL l).map fwFold = normL l := map_fix _ (fun c hc => (hA c hc).1)
  have hm2 : (normL l).map fwRangeFold = normL l := map_fix _ (fun c hc => (hA c hc).2.1)
  have hm3 : (normL l).map ideographicSpaceFold = normL l :=
    map_fix _ (fun c hc => (hA c hc).2.2)
  have hstrip : stripWs (normL l) = normL l :=
    stripEnds_no_strip pyWs _ (fun c hc => (hhead c hc).2) (fun c hc => (hlast c hc).2)
  have hcoll : collapseWs (normL l) = normL l := by
    rw [hn1]
    exact collapseWs_fix _ (okWs_collapseWs _)
  have hpar : removeParenMeta (normL l) = normL l := removeParenMeta_id _ h
  have hbra : removeBracketMeta (normL l) = normL l := removeBracketMeta_id _ h
  have hquo : stripQuotes (normL l) = normL l :=
    stripEnds_no_strip quoteSet _ (fun c hc => (hhead c hc).1) (fun c hc => (hlast c hc).1)
  show stripWs (collapseWs (stripQuotes (removeBracketMeta (removeParenMeta
    (collapseWs (stripWs ((((normL l).map fwFold).map fwRangeFold).map
      ideographicSpaceFold))))))) = normL l
  rw [hm1, hm2, hm3, hstrip, hcoll, hpar, hbra, hquo, hcoll, hstrip]

/-- Claim C7 counterexample: `norm` is not idempotent.  On
`"(a [)beta] beta)"` the parenthesis pass finds no marker before the
first `)`, but the bracket pass deletes `[)beta]`, exposing the new
parenthesized metadata span `(a beta)` — which only a second
application removes: `norm` gives `"(a beta)"`, `norm ∘ norm` gives
`""`. -/
theorem norm_not_idempotent :
    norm (norm "(a [)beta] beta)") ≠ norm "(a [)beta] beta)" := by
  have h1 : norm "(a [)beta] beta)" = "(a beta)" := by decide
  have h2 : norm "(a beta)" = "" := by decide
  rw [h1, h2]
  decide

/-- Claim C7 amended: normalization is idempotent on every input whose
normalized form contains no metadata marker
(`norm (norm s) = norm s` whenever `containsMeta (norm s).data = false`);
in general idempotence fails because bracket-span removal can expose a
new parenthesized metadata span that only the second pass removes. -/
theorem norm_idempotent_of_meta_free (s : String)
    (h : containsMeta (norm s).data = false) : norm (norm s) = norm s := by
  rw [norm_data] at h
  have hfix : normL (normL s.data) = normL s.data := normL_fix s.data h
  show String.mk (normL (norm s).data) = norm s
  rw [norm_data, hfix]
  show String.mk (normL s.data) = String.mk (normL s.data)
  rfl

/-- Claim C7 witness: a concrete marker-free input on which idempotence
holds. -/
theorem norm_idempotent_of_meta_free_witness :
    containsMeta (norm "Hello   World").data = false ∧
    norm (norm "Hello   World") = norm "Hello   World" :=
  ⟨by decide, norm_idempotent_of_meta_free "Hello   World" (by decide)⟩

end CNRom
